import Mathlib

/-!
# Verification of the audio splicing engine (`api/splice-audio.py`)

This file gives a shallow embedding of the splicing engine of the
repository and proves/refutes the specification claims about it.

Modelling conventions:
* Durations and timestamps are rationals (`ℚ`); the Python floats carry
  exact decimal constants here (5.0, 10.0, 0.5, 16000, 1024, …).
* An audio asset is abstracted by its byte string (`List ℕ`) where byte
  content matters (binary concatenation, duration limiting), and by its
  probed duration (`ℚ`) where only the timeline matters.
* `_extract_music_segment` re-encodes the frames of the source whose
  presentation timestamp `t` satisfies `start ≤ t < end`; for a source
  whose frames live on `[0, d)` the written duration is
  `max 0 (min end d - max start 0)` (`clampedDuration` below).
* The Sequencer's byte-level join (skip of 1024 leading bytes per later
  file) is modelled as duration-neutral, following §4.5 of the design:
  all joined files are normalized and the skipped prefix stands for
  per-file leading metadata.  Its exact byte-level behaviour is modelled
  separately by `binaryConcatBytes`.
-/

namespace SpliceAudio

/-- An entry of a concatenation order: either a music segment, given by its
`(start, end)` range on the original music timeline, or the index of a
speech chunk. -/
abbrev Item := (ℚ × ℚ) ⊕ ℕ

/-! ## Insertion planning (`_splice_distributed_pyav`, lines 381-398) -/

/-- `buffer_start = 5.0`: seconds reserved at the start of the music. -/
def bufferStart : ℚ := 5

/-- `buffer_end = 10.0`: seconds reserved at the end of the music. -/
def bufferEnd : ℚ := 10

/-- `available_music_duration = max(music_duration - buffer_start - buffer_end,
music_duration * 0.5)`. -/
def availableMusicDuration (d : ℚ) : ℚ :=
  max (d - bufferStart - bufferEnd) (d * (1/2))

/-- `point = buffer_start + (i * interval)` with
`interval = available_music_duration / len(speech_chunks)`. -/
def insertionPoint (d : ℚ) (n i : ℕ) : ℚ :=
  bufferStart + (i : ℚ) * (availableMusicDuration d / (n : ℚ))

/-- The list `insertion_points` computed for `n` speech chunks over music of
duration `d`: a single chunk is placed at `buffer_start`; otherwise the
points `buffer_start + i * interval` for `i = 0, …, n-1`. -/
def insertionPoints (d : ℚ) (n : ℕ) : List ℚ :=
  if n = 1 then [bufferStart]
  else (List.range n).map (fun i => insertionPoint d n i)

/-! ## Splitting music (`_split_music_for_insertion`, lines 524-565) -/

/-- The loop of `_split_music_for_insertion`: starting from
`current_start`, each insertion point yields the segment
`(current_start, point)` when `point > current_start` and `None`
otherwise, and `current_start` then moves to the point. -/
def splitGo (cs : ℚ) : List ℚ → List (Option (ℚ × ℚ))
  | [] => []
  | p :: ps => (if cs < p then some (cs, p) else none) :: splitGo p ps

/-- `_split_music_for_insertion`: the segments between consecutive insertion
points, plus — when the last insertion point lies strictly before the end
of the music — a final segment running to the end of the track. -/
def splitMusicForInsertion (d : ℚ) (points : List ℚ) : List (Option (ℚ × ℚ)) :=
  if points.getLastD 0 < d then
    splitGo 0 points ++ [some (points.getLastD 0, d)]
  else
    splitGo 0 points

/-- Duration of the audio written by `_extract_music_segment input output s e`
when the source holds frames on `[0, d)`: the decoder keeps exactly the
frames with `s ≤ t < e`, so the written duration is the length of
`[max s 0, min e d)`. -/
def clampedDuration (d s e : ℚ) : ℚ := max 0 (min e d - max s 0)

/-- The non-`None` segments of a split, in order (used to state the
content-preservation invariant). -/
def musicSegmentsOf (d : ℚ) (points : List ℚ) : List (ℚ × ℚ) :=
  (splitMusicForInsertion d points).reduceOption

/-! ## Distributed assembly (`_splice_distributed_pyav`, lines 410-439) -/

/-- Truthiness test of `music_segments[i]` in the assembly loop: a `None`
entry contributes nothing, a real segment contributes one item. -/
def optionToItems (o : Option (ℚ × ℚ)) : List Item :=
  match o with
  | some s => [Sum.inl s]
  | none => []

/-- The order `temp_files_to_concat` built by `_splice_distributed_pyav` for
`n` speech chunks over music of duration `d`: speech chunk `0` first, then
for each insertion point the music segment before it (when present)
followed by the next speech chunk (when any remains), then the final
trailing music segment (when present). -/
def distributedConcatOrder (d : ℚ) (n : ℕ) : List Item :=
  let points := insertionPoints d n
  let musicSegments := splitMusicForInsertion d points
  let intro : List Item := if 0 < n then [Sum.inr 0] else []
  let body : List Item := (List.range points.length).flatMap (fun i =>
    (if i < musicSegments.length then optionToItems (musicSegments.getD i none) else []) ++
    (if i + 1 < n then [Sum.inr (i + 1)] else []))
  let finalSeg : List Item :=
    if points.length < musicSegments.length then
      optionToItems (musicSegments.getLastD none)
    else []
  intro ++ body ++ finalSeg

/-- Duration contributed by one item of a concatenation order: a music
segment contributes its clamped extraction duration, speech chunk `i`
contributes its probed duration `sd[i]`. -/
def itemDuration (d : ℚ) (sd : List ℚ) : Item → ℚ
  | Sum.inl s => clampedDuration d s.1 s.2
  | Sum.inr i => sd.getD i 0

/-- Duration of the output of distributed splicing for music of duration `d`
and speech chunks of durations `sd`, with the Sequencer modelled as
duration-additive. -/
def totalOutputDuration (d : ℚ) (sd : List ℚ) : ℚ :=
  ((distributedConcatOrder d sd.length).map (itemDuration d sd)).sum

/-! ## Mode dispatch (`do_POST`, lines 84 and 165-184) -/

/-- The two code paths a request can reach: `splice_distributed_pyav` on the
individual chunks, or intro splicing (`splice_intro`, chunks pre-joined
when there are several). -/
inductive Strategy
  | distributedMulti
  | introConcat
deriving DecidableEq

/-- `splice_mode = data.get('spliceMode', 'intro')`: a request that omits
the field gets the literal default `'intro'`. -/
def requestSpliceMode (field : Option String) : String :=
  field.getD "intro"

/-- The dispatch of `do_POST`: distributed splicing when there are multiple
chunks and the mode is `distributed` or `random`; intro splicing when the
mode is `intro`; otherwise distributed for multiple chunks and intro for a
single chunk. -/
def selectStrategy (spliceMode : String) (numChunks : ℕ) : Strategy :=
  if 1 < numChunks ∧ (spliceMode = "distributed" ∨ spliceMode = "random")
    then Strategy.distributedMulti
  else if spliceMode = "intro" then Strategy.introConcat
  else if 1 < numChunks then Strategy.distributedMulti
  else Strategy.introConcat

/-- `splice_simple_concat`: the speech file followed by the entire music
file, as a concatenation order. -/
def spliceSimpleConcatOrder (d : ℚ) : List Item :=
  [Sum.inr 0, Sum.inl (0, d)]

/-- `splice_random`: it ignores both duration arguments and delegates to
`splice_simple_concat` (speech, then the entire music of duration
`musicDuration`). -/
def spliceRandomOrder (musicDuration _speechDuration : ℚ) : List Item :=
  spliceSimpleConcatOrder musicDuration

/-- The concatenation order actually executed for a single-chunk request of
the given mode (the dispatch of `do_POST` followed by the selected splice
function). -/
def singleChunkSpliceOrder (mode : String) (d : ℚ) : List Item :=
  match selectStrategy mode 1 with
  | Strategy.distributedMulti => distributedConcatOrder d 1
  | Strategy.introConcat => spliceSimpleConcatOrder d

/-! ## Duration limiting (`limit_duration`, lines 704-718) -/

/-- `limit_duration input output max_duration`: the implementation opens the
input, copies every byte to the output, and performs no trimming at all. -/
def limit_duration (input : List ℕ) (_maxDuration : ℚ) : List ℕ :=
  input

/-! ## Duration probing (`get_audio_duration`, lines 325-347) -/

/-- `get_audio_duration`, abstracted over the two probe outcomes: the
container-level duration when PyAV can read it, else the byte-size
heuristic `file_size / 16000`, else the fixed default `180.0`. -/
def get_audio_duration (containerDuration : Option ℚ) (fileSize : Option ℕ) : ℚ :=
  match containerDuration with
  | some t => t
  | none =>
    match fileSize with
    | some bytes => (bytes : ℚ) / 16000
    | none => 180

/-! ## Binary concatenation (`concatenate_audio_files` lines 304-315,
`splice_simple_concat` lines 674-681, `_splice_distributed_pyav`
lines 443-450) -/

/-- The shared binary-concatenation loop: every file after the first
(`i > 0`) is read from offset `1024` (`infile.seek(1024)`), so its first
1024 bytes are dropped; reading a file of at most 1024 bytes from that
offset yields nothing. -/
def binaryConcatGo : ℕ → List (List ℕ) → List ℕ
  | _, [] => []
  | i, f :: rest => (if 0 < i then f.drop 1024 else f) ++ binaryConcatGo (i + 1) rest

/-- Binary concatenation of standardized files, as performed by
`concatenate_audio_files`, `splice_simple_concat` and the final assembly of
`_splice_distributed_pyav`. -/
def binaryConcatBytes (files : List (List ℕ)) : List ℕ :=
  binaryConcatGo 0 files

/-! ## Temporary-file lifecycle of `_splice_distributed_pyav`
(lines 400-467): `/tmp/music_segment_{i}.mp3`, `/tmp/music_segment_final.mp3`
and `/tmp/temp_speech_{i}.mp3` are created during the run and removed in a
single cleanup loop placed after the final concatenation; the `except`
handler re-raises without removing anything. -/

/-- The temporary files of one distributed splice. -/
inductive TmpFile
  | seg (i : ℕ)
  | segFinal
  | speech (i : ℕ)
deriving DecidableEq

/-- Filesystem effects of the steps of the splice. `work` stands for a step
that touches no temporary file (the final concatenation, the closing
duration probe). -/
inductive FsAction
  | create (f : TmpFile)
  | remove (f : TmpFile)
  | work

/-- Effect of one action on the set of existing temporary files
(`os.remove` of the first matching entry; creation appends). -/
def applyFs (s : List TmpFile) : FsAction → List TmpFile
  | FsAction.create f => s ++ [f]
  | FsAction.remove f => s.erase f
  | FsAction.work => s

/-- Run a list of actions with an optional injected failure: `some k` makes
the `k`-th action raise instead of executing, and — as in the source, which
has no `finally` cleanup — the run stops there, returning `false` and the
files existing at that moment.  `none` runs to completion. -/
def runFs : List FsAction → Option ℕ → List TmpFile → Bool × List TmpFile
  | [], _, s => (true, s)
  | _ :: _, some 0, s => (false, s)
  | a :: rest, some (k + 1), s => runFs rest (some k) (applyFs s a)
  | a :: rest, none, s => runFs rest none (applyFs s a)

/-- Pair each list entry with its index, starting at `i` (the
`enumerate` of the segment-creation loop). -/
def withIdx {α : Type} : ℕ → List α → List (ℕ × α)
  | _, [] => []
  | i, a :: l => (i, a) :: withIdx (i + 1) l

/-- The `music_segments` list as temporary file names: entry `i` is
`music_segment_{i}` when segment `i` was written and `None` otherwise,
with `music_segment_final` appended when the final segment exists. -/
def musicSegmentTempNames (d : ℚ) (n : ℕ) : List (Option TmpFile) :=
  (withIdx 0 (splitGo 0 (insertionPoints d n))).map
    (fun p => p.2.map (fun _ => TmpFile.seg p.1)) ++
  (if (insertionPoints d n).getLastD 0 < d then [some TmpFile.segFinal] else [])

/-- All temporary files of a distributed splice in creation order, which is
also the order of the cleanup loop (`all_temp_files = music_segments +
converted_speech`, skipping `None` entries). -/
def distributedTempNames (d : ℚ) (n : ℕ) : List TmpFile :=
  (musicSegmentTempNames d n).reduceOption ++ (List.range n).map TmpFile.speech

/-- The filesystem action sequence of `_splice_distributed_pyav`: create
every temporary file, run the final concatenation, remove every temporary
file, probe the output duration. -/
def distributedFsActions (d : ℚ) (n : ℕ) : List FsAction :=
  (distributedTempNames d n).map FsAction.create ++ [FsAction.work] ++
  (distributedTempNames d n).map FsAction.remove ++ [FsAction.work]

/-! ## Specification-side and proof-side definitions -/

/-- A list of segments is a contiguous path from `a` to `b`: each segment
has positive length and starts where the previous one ended, the first
starts at `a`, the last ends at `b` (an empty path requires `a = b`). -/
def SegPath : ℚ → ℚ → List (ℚ × ℚ) → Prop
  | a, b, [] => a = b
  | a, b, s :: rest => s.1 = a ∧ s.1 < s.2 ∧ SegPath s.2 b rest

/-- Duration contribution of one entry of the `music_segments` list (a
`None` entry contributes nothing). -/
def optDuration (d : ℚ) : Option (ℚ × ℚ) → ℚ
  | some s => clampedDuration d s.1 s.2
  | none => 0

/-- The successive pairs `(a, b₀), (b₀, b₁), …` of a list of cut points
prefixed by `a`. -/
def pairsFrom : ℚ → List ℚ → List (ℚ × ℚ)
  | _, [] => []
  | a, b :: t => (a, b) :: pairsFrom b t

/-- The assembly order described by §4.4-5 of the design document: the
first speech chunk, then the alternation music-segment / next
speech-chunk over the insertion points, closing with the final trailing
music segment running from the last insertion point to the end of the
track.  Stated from the specification's words, for comparison with
`distributedConcatOrder`. -/
def specAssembleOrder (d : ℚ) (n : ℕ) : List Item :=
  Sum.inr 0 :: ((List.range n).flatMap (fun i =>
    Sum.inl (if i = 0 then 0 else insertionPoint d n (i - 1), insertionPoint d n i) ::
      (if i + 1 < n then [Sum.inr (i + 1)] else [])) ++
    [Sum.inl (insertionPoint d n (n - 1), d)])

/-! ## Helper lemmas -/

lemma binaryConcatGo_pos (rest : List (List ℕ)) :
    ∀ i : ℕ, 0 < i →
      binaryConcatGo i rest = (rest.map (fun f => f.drop 1024)).flatten := by
  induction rest with
  | nil => intro i _; rfl
  | cons f t ih =>
    intro i hi
    simp only [binaryConcatGo, if_pos hi, List.map_cons, List.flatten_cons,
      ih (i + 1) (Nat.succ_pos i)]

lemma runFs_none (acts : List FsAction) :
    ∀ s, runFs acts none s = (true, acts.foldl applyFs s) := by
  induction acts with
  | nil => intro s; rfl
  | cons a rest ih => intro s; simp only [runFs, ih, List.foldl_cons]

lemma foldl_create (names : List TmpFile) :
    ∀ s, (names.map FsAction.create).foldl applyFs s = s ++ names := by
  induction names with
  | nil => intro s; simp
  | cons f t ih =>
    intro s
    simp only [List.map_cons, List.foldl_cons, applyFs, ih, List.append_assoc,
      List.singleton_append]

lemma foldl_remove_self (names : List TmpFile) :
    (names.map FsAction.remove).foldl applyFs names = [] := by
  induction names with
  | nil => rfl
  | cons f t ih =>
    simp only [List.map_cons, List.foldl_cons, applyFs, List.erase_cons_head, ih]

lemma segPath_sum_lengths : ∀ (l : List (ℚ × ℚ)) (a b : ℚ), SegPath a b l →
    (l.map (fun s => s.2 - s.1)).sum = b - a := by
  intro l
  induction l with
  | nil =>
    intro a b h
    simp only [SegPath] at h
    simp [h]
  | cons s rest ih =>
    intro a b h
    obtain ⟨h1, _, h3⟩ := h
    simp only [List.map_cons, List.sum_cons, ih s.2 b h3, h1]
    ring

lemma clampedDuration_eq_min (d s e : ℚ) (hs : 0 ≤ s) (hse : s ≤ e) :
    clampedDuration d s e = min e d - min s d := by
  unfold clampedDuration
  rw [max_eq_left hs]
  rcases le_total s d with h | h
  · rw [min_eq_left h, max_eq_right (sub_nonneg.mpr (le_min hse h))]
  · rw [min_eq_right h, min_eq_right (le_trans h hse),
      max_eq_left (sub_nonpos.mpr h), sub_self]

lemma segPath_sum_clamped (d : ℚ) : ∀ (l : List (ℚ × ℚ)) (a b : ℚ),
    SegPath a b l → 0 ≤ a →
    (l.map (fun s => clampedDuration d s.1 s.2)).sum = min b d - min a d := by
  intro l
  induction l with
  | nil =>
    intro a b h _
    simp only [SegPath] at h
    simp [h]
  | cons s rest ih =>
    intro a b h ha
    obtain ⟨h1, h2, h3⟩ := h
    have hs : 0 ≤ s.1 := h1 ▸ ha
    have hs2 : 0 ≤ s.2 := le_of_lt (lt_of_le_of_lt hs h2)
    rw [List.map_cons, List.sum_cons, ih s.2 b h3 hs2,
      clampedDuration_eq_min d s.1 s.2 hs (le_of_lt h2), h1]
    ring

lemma segPath_head?_fst : ∀ (l : List (ℚ × ℚ)) (a b : ℚ), SegPath a b l → l ≠ [] →
    l.head?.map Prod.fst = some a := by
  intro l a b h hne
  cases l with
  | nil => exact absurd rfl hne
  | cons s rest => simp only [List.head?_cons, Option.map_some]; exact congrArg some h.1

lemma segPath_getLast?_snd : ∀ (l : List (ℚ × ℚ)) (a b : ℚ), SegPath a b l → l ≠ [] →
    l.getLast?.map Prod.snd = some b := by
  intro l
  induction l with
  | nil => intro a b _ hne; exact absurd rfl hne
  | cons s rest ih =>
    intro a b h _
    obtain ⟨_, _, h3⟩ := h
    cases rest with
    | nil =>
      simp only [SegPath] at h3
      simp [h3]
    | cons t ts =>
      rw [List.getLast?_cons_cons]
      exact ih s.2 b h3 (List.cons_ne_nil t ts)

lemma segPath_chain' : ∀ (l : List (ℚ × ℚ)) (a b : ℚ), SegPath a b l →
    List.Chain' (fun x y => x.2 = y.1) l := by
  intro l
  induction l with
  | nil => intro a b _; exact List.chain'_nil
  | cons s rest ih =>
    intro a b h
    obtain ⟨_, _, h3⟩ := h
    cases rest with
    | nil => exact List.chain'_singleton s
    | cons t ts =>
      rw [List.chain'_cons]
      exact ⟨h3.1.symm, ih s.2 b h3⟩

lemma segPath_append_single : ∀ (l : List (ℚ × ℚ)) (a b c : ℚ),
    SegPath a b l → b < c → SegPath a c (l ++ [(b, c)]) := by
  intro l
  induction l with
  | nil =>
    intro a b c h hbc
    simp only [SegPath] at h
    exact ⟨h.symm, hbc, rfl⟩
  | cons s rest ih =>
    intro a b c h hbc
    obtain ⟨h1, h2, h3⟩ := h
    exact ⟨h1, h2, ih s.2 b c h3 hbc⟩

lemma splitGo_segPath : ∀ (l : List ℚ) (cs : ℚ), List.Chain (· ≤ ·) cs l →
    SegPath cs (l.getLastD cs) ((splitGo cs l).reduceOption) := by
  intro l
  induction l with
  | nil =>
    intro cs _
    simp only [splitGo, List.reduceOption_nil, List.getLastD, SegPath]
  | cons p ps ih =>
    intro cs hch
    rw [List.chain_cons] at hch
    obtain ⟨hcp, hch'⟩ := hch
    rw [List.getLastD_cons cs p ps]
    by_cases h : cs < p
    · simp only [splitGo, if_pos h, List.reduceOption_cons_of_some]
      exact ⟨rfl, h, ih p hch'⟩
    · have hpc : p = cs := le_antisymm (not_lt.mp h) hcp
      simp only [splitGo, if_neg h, List.reduceOption_cons_of_none]
      subst hpc
      exact ih p hch'

lemma getLastD_mem : ∀ (l : List ℚ) (x : ℚ), l ≠ [] → l.getLastD x ∈ l := by
  intro l
  induction l with
  | nil => intro x h; exact absurd rfl h
  | cons p ps ih =>
    intro x _
    rw [List.getLastD_cons x p ps]
    cases ps with
    | nil => simp [List.getLastD]
    | cons q qs => exact List.mem_cons_of_mem p (ih p (List.cons_ne_nil q qs))

/-- The segments of `_split_music_for_insertion` form a contiguous path
over `[0, d]` whenever the insertion points are sorted, nonnegative and
within the track. -/
lemma splitMusic_segPath (d : ℚ) (points : List ℚ) (hne : points ≠ [])
    (hch : List.Chain (· ≤ ·) 0 points) (hle : ∀ p ∈ points, p ≤ d) :
    SegPath 0 d (musicSegmentsOf d points) := by
  unfold musicSegmentsOf splitMusicForInsertion
  by_cases h : points.getLastD 0 < d
  · rw [if_pos h, List.reduceOption_append]
    exact segPath_append_single _ 0 _ d (splitGo_segPath points 0 hch) h
  · rw [if_neg h]
    have heq : points.getLastD 0 = d :=
      le_antisymm (hle _ (getLastD_mem points 0 hne)) (not_lt.mp h)
    have hp := splitGo_segPath points 0 hch
    rw [heq] at hp
    exact hp

/-- Clamped extraction durations of a split sum to the music duration, for
any sorted nonnegative insertion points (points beyond the end of the
track contribute clamped, zero-length audio). -/
lemma sum_clamped_splitMusic (d : ℚ) (points : List ℚ) (hd : 0 ≤ d)
    (hch : List.Chain (· ≤ ·) 0 points) :
    ((musicSegmentsOf d points).map (fun s => clampedDuration d s.1 s.2)).sum = d := by
  unfold musicSegmentsOf splitMusicForInsertion
  by_cases h : points.getLastD 0 < d
  · rw [if_pos h]
    have hp2 := segPath_append_single _ 0 _ d (splitGo_segPath points 0 hch) h
    have hsum := segPath_sum_clamped d _ 0 d hp2 le_rfl
    simp only [List.reduceOption_append, List.reduceOption_cons_of_some,
      List.reduceOption_nil]
    rw [hsum, min_self, min_eq_left hd]
    ring
  · rw [if_neg h]
    rw [segPath_sum_clamped d _ 0 _ (splitGo_segPath points 0 hch) le_rfl]
    rw [min_eq_right (not_lt.mp h), min_eq_left hd]
    ring

/-! ## Claim C5: the split is a partition of the music timeline -/

/-- C5 counterexample: the claim quantifies over every non-empty list of
insertion points, but for the unsorted list `[10, 5]` over 20 s of music
the splitter emits `(0, 10)` and `(5, 20)`: the interval `[5, 10]` appears
twice, the segments are not adjacent, and the lengths sum to 25 ≠ 20. -/
theorem split_partition_counterexample :
    musicSegmentsOf 20 [10, 5] = [(0, 10), (5, 20)] ∧
    ((musicSegmentsOf 20 [10, 5]).map (fun s => s.2 - s.1)).sum = 25 ∧
    (25 : ℚ) ≠ 20 ∧
    ¬ List.Chain' (fun x y => x.2 = y.1) (musicSegmentsOf 20 [10, 5]) := by
  have h : musicSegmentsOf 20 [10, 5] = [(0, 10), (5, 20)] := by
    norm_num [musicSegmentsOf, splitMusicForInsertion, splitGo, List.getLastD,
      List.reduceOption_cons_of_some, List.reduceOption_cons_of_none]
  refine ⟨h, by rw [h]; norm_num, by norm_num, ?_⟩
  rw [h, List.chain'_cons]
  norm_num

/-- C5 amended: for every music duration `d > 0` and every non-empty
*sorted* list of nonnegative insertion points bounded by `d` (the only
lists the Insertion Planner produces), the split segments form an ordered
partition of `[0, d]`: consecutive segments are adjacent, the first starts
at 0, the last ends at `d`, and the lengths sum to `d`. -/
theorem split_partition_sorted :
    ∀ (d : ℚ) (points : List ℚ),
      0 < d → points ≠ [] → List.Chain (· ≤ ·) 0 points → (∀ p ∈ points, p ≤ d) →
      musicSegmentsOf d points ≠ [] ∧
      (musicSegmentsOf d points).head?.map Prod.fst = some 0 ∧
      (musicSegmentsOf d points).getLast?.map Prod.snd = some d ∧
      List.Chain' (fun x y => x.2 = y.1) (musicSegmentsOf d points) ∧
      ((musicSegmentsOf d points).map (fun s => s.2 - s.1)).sum = d := by
  intro d points hd hne hch hle
  have hpath : SegPath 0 d (musicSegmentsOf d points) :=
    splitMusic_segPath d points hne hch hle
  have hne' : musicSegmentsOf d points ≠ [] := by
    intro h
    rw [h] at hpath
    simp only [SegPath] at hpath
    exact (ne_of_lt hd) hpath
  refine ⟨hne', segPath_head?_fst _ 0 d hpath hne', segPath_getLast?_snd _ 0 d hpath hne',
    segPath_chain' _ 0 d hpath, ?_⟩
  rw [segPath_sum_lengths _ 0 d hpath]
  ring

/-- Evaluation of `split_partition_sorted` on sorted points `[5, 10]` over
20 s of music. -/
theorem split_partition_sorted_witness :
    musicSegmentsOf 20 [5, 10] ≠ [] ∧
    ((musicSegmentsOf 20 [5, 10]).map (fun s => s.2 - s.1)).sum = 20 := by
  have h := split_partition_sorted 20 [5, 10] (by norm_num) (by simp)
    (by norm_num [List.chain_cons]) ?_
  · exact ⟨h.1, h.2.2.2.2⟩
  · intro p hp
    rcases List.mem_cons.mp hp with h5 | hp'
    · rw [h5]; norm_num
    · rcases List.mem_cons.mp hp' with h10 | habs
      · rw [h10]; norm_num
      · simp at habs

lemma insertionPoints_eq_map (d : ℚ) (n : ℕ) :
    insertionPoints d n = (List.range n).map (fun i => insertionPoint d n i) := by
  unfold insertionPoints
  by_cases h : n = 1
  · subst h
    norm_num [insertionPoint, List.range_succ]
  · rw [if_neg h]

lemma insertionPoints_length (d : ℚ) (n : ℕ) : (insertionPoints d n).length = n := by
  rw [insertionPoints_eq_map]
  simp

lemma splitGo_length : ∀ (l : List ℚ) (cs : ℚ), (splitGo cs l).length = l.length := by
  intro l
  induction l with
  | nil => intro cs; rfl
  | cons p ps ih => intro cs; simp only [splitGo, List.length_cons, ih]

lemma chain_map_range {r : ℚ → ℚ → Prop} :
    ∀ (n : ℕ) (f : ℕ → ℚ) (a : ℚ), (0 < n → r a (f 0)) → (∀ i, r (f i) (f (i + 1))) →
      List.Chain r a ((List.range n).map f) := by
  intro n
  induction n with
  | zero => intro f a _ _; exact List.Chain.nil
  | succ m ih =>
    intro f a h0 hstep
    rw [List.range_succ_eq_map, List.map_cons, List.map_map, List.chain_cons]
    refine ⟨h0 (Nat.succ_pos m), ?_⟩
    exact ih (fun i => f (i + 1)) (f 0) (fun _ => hstep 0) (fun i => hstep (i + 1))

lemma availableMusicDuration_nonneg (d : ℚ) (hd : 0 ≤ d) :
    0 ≤ availableMusicDuration d := by
  refine le_trans ?_ (le_max_right _ _)
  linarith

lemma chain_le_insertionPoints (d : ℚ) (hd : 0 ≤ d) (n : ℕ) :
    List.Chain (· ≤ ·) 0 (insertionPoints d n) := by
  rw [insertionPoints_eq_map]
  apply chain_map_range
  · intro _
    norm_num [insertionPoint, bufferStart]
  · intro i
    unfold insertionPoint
    have hq : 0 ≤ availableMusicDuration d / (n : ℚ) :=
      div_nonneg (availableMusicDuration_nonneg d hd) (by positivity)
    push_cast
    nlinarith [hq]

lemma availableMusicDuration_pos (d : ℚ) (hd : 0 < d) :
    0 < availableMusicDuration d := by
  refine lt_of_lt_of_le ?_ (le_max_right _ _)
  linarith

lemma chain_lt_insertionPoints (d : ℚ) (hd : 0 < d) (n : ℕ) (hn : 1 ≤ n) :
    List.Chain (· < ·) 0 (insertionPoints d n) := by
  rw [insertionPoints_eq_map]
  have hq : 0 < availableMusicDuration d / (n : ℚ) :=
    div_pos (availableMusicDuration_pos d hd) (by exact_mod_cast hn)
  apply chain_map_range
  · intro _
    norm_num [insertionPoint, bufferStart]
  · intro i
    unfold insertionPoint
    push_cast
    nlinarith [hq]

lemma sum_map_range_getD {α : Type} (f : α → ℚ) (dflt : α) :
    ∀ l : List α,
      ((List.range l.length).map (fun i => f (l.getD i dflt))).sum = (l.map f).sum := by
  intro l
  induction l with
  | nil => simp
  | cons a t ih =>
    rw [List.length_cons, List.range_succ_eq_map, List.map_cons, List.map_map, List.sum_cons]
    rw [show ((fun i => f ((a :: t).getD i dflt)) ∘ Nat.succ) = (fun i => f (t.getD i dflt))
      from funext fun i => by rw [Function.comp_apply, List.getD_cons_succ]]
    rw [ih, List.map_cons, List.sum_cons, List.getD_cons_zero]

lemma sum_map_add_distrib (f g : ℕ → ℚ) :
    ∀ l : List ℕ, (l.map (fun i => f i + g i)).sum = (l.map f).sum + (l.map g).sum := by
  intro l
  induction l with
  | nil => simp
  | cons a t ih =>
    simp only [List.map_cons, List.sum_cons, ih]
    ring

lemma sum_itemDuration_optionToItems (d : ℚ) (sd : List ℚ) (o : Option (ℚ × ℚ)) :
    ((optionToItems o).map (itemDuration d sd)).sum = optDuration d o := by
  cases o <;> simp [optionToItems, optDuration, itemDuration]

lemma sum_optDuration_reduceOption (d : ℚ) : ∀ l : List (Option (ℚ × ℚ)),
    (l.map (optDuration d)).sum =
      ((l.reduceOption).map (fun s => clampedDuration d s.1 s.2)).sum := by
  intro l
  induction l with
  | nil => simp
  | cons o t ih =>
    cases o with
    | none => simpa [optDuration] using ih
    | some s =>
      simp only [List.map_cons, List.sum_cons, List.reduceOption_cons_of_some, ih, optDuration]

lemma sum_map_flatMap (g : Item → ℚ) (F : ℕ → List Item) :
    ∀ l : List ℕ, ((l.flatMap F).map g).sum = (l.map (fun i => ((F i).map g).sum)).sum := by
  intro l
  induction l with
  | nil => rfl
  | cons a t ih =>
    rw [List.flatMap_cons, List.map_append, List.sum_append, ih, List.map_cons, List.sum_cons]

lemma sum_getD_range : ∀ (sd : List ℚ) (m : ℕ), sd.length ≤ m →
    ((List.range m).map (fun j => sd.getD j 0)).sum = sd.sum := by
  intro sd
  induction sd with
  | nil =>
    intro m _
    have : ∀ j ∈ List.range m, ([] : List ℚ).getD j 0 = 0 := fun j _ => rfl
    rw [List.map_congr_left this]
    simp
  | cons a t ih =>
    intro m hm
    cases m with
    | zero => simp at hm
    | succ m' =>
      rw [List.range_succ_eq_map, List.map_cons, List.map_map, List.sum_cons]
      rw [show ((fun j => (a :: t).getD j 0) ∘ Nat.succ) = (fun j => t.getD j 0)
        from funext fun j => by rw [Function.comp_apply, List.getD_cons_succ]]
      rw [ih m' (Nat.succ_le_succ_iff.mp hm), List.getD_cons_zero, List.sum_cons]

lemma speech_sum_lemma (sd : List ℚ) :
    sd.getD 0 0 +
      ((List.range sd.length).map
        (fun i => if i + 1 < sd.length then sd.getD (i + 1) 0 else 0)).sum = sd.sum := by
  have hcongr : (List.range sd.length).map
      (fun i => if i + 1 < sd.length then sd.getD (i + 1) 0 else 0) =
      (List.range sd.length).map (fun i => sd.getD (i + 1) 0) := by
    apply List.map_congr_left
    intro i hi
    rw [List.mem_range] at hi
    by_cases h : i + 1 < sd.length
    · rw [if_pos h]
    · rw [if_neg h, List.getD_eq_default _ _ (by omega)]
  rw [hcongr]
  have hsplit : ((List.range (sd.length + 1)).map (fun j => sd.getD j 0)).sum =
      sd.getD 0 0 + ((List.range sd.length).map (fun i => sd.getD (i + 1) 0)).sum := by
    rw [List.range_succ_eq_map, List.map_cons, List.map_map, List.sum_cons]
    rw [show ((fun j => sd.getD j 0) ∘ Nat.succ) = (fun i => sd.getD (i + 1) 0)
      from funext fun j => rfl]
  have htotal := sum_getD_range sd (sd.length + 1) (Nat.le_succ _)
  linarith [hsplit, htotal]

lemma flatMap_sum_eval (d : ℚ) (sd : List ℚ) (n : ℕ) (M G : List (Option (ℚ × ℚ)))
    (hGlen : G.length = n) (hMge : n ≤ M.length)
    (hget : ∀ i, i < n → M.getD i none = G.getD i none) :
    (((List.range n).flatMap (fun i =>
        (if i < M.length then optionToItems (M.getD i none) else []) ++
        (if i + 1 < n then [Sum.inr (i + 1)] else []))).map (itemDuration d sd)).sum =
      ((G.reduceOption).map (fun s => clampedDuration d s.1 s.2)).sum +
      ((List.range n).map (fun i => if i + 1 < n then sd.getD (i + 1) 0 else 0)).sum := by
  rw [sum_map_flatMap]
  have hpt : ∀ i ∈ List.range n,
      (((if i < M.length then optionToItems (M.getD i none) else []) ++
        (if i + 1 < n then [Sum.inr (i + 1)] else [])).map (itemDuration d sd)).sum =
      optDuration d (G.getD i none) + (if i + 1 < n then sd.getD (i + 1) 0 else 0) := by
    intro i hi
    rw [List.mem_range] at hi
    rw [if_pos (lt_of_lt_of_le hi hMge), hget i hi, List.map_append, List.sum_append,
      sum_itemDuration_optionToItems]
    congr 1
    split_ifs with h
    · simp [itemDuration]
    · simp
  rw [List.map_congr_left hpt,
    sum_map_add_distrib (fun i => optDuration d (G.getD i none))
      (fun i => if i + 1 < n then sd.getD (i + 1) 0 else 0) (List.range n)]
  congr 1
  have h1 := sum_map_range_getD (optDuration d) none G
  rw [hGlen] at h1
  rw [h1, sum_optDuration_reduceOption]

/-! ## Claim C1: distributed-mode duration conservation -/

/-- C1: for every valid distributed request (nonnegative probed music
duration, at least one speech chunk), the duration of the assembled
output equals the music duration plus the sum of the speech-chunk
durations — exactly, in the timeline model: the plan inserts every chunk
once and the music segments reconstruct the full track, so insertion
never truncates or overlaps the timeline. -/
theorem distributed_duration_conservation (d : ℚ) (sd : List ℚ)
    (hd : 0 ≤ d) (hne : sd ≠ []) :
    totalOutputDuration d sd = d + sd.sum := by
  have hnpos : 0 < sd.length := List.length_pos.mpr hne
  have hch := chain_le_insertionPoints d hd sd.length
  have hGlen : (splitGo 0 (insertionPoints d sd.length)).length = sd.length := by
    rw [splitGo_length, insertionPoints_length]
  have hclamp := sum_clamped_splitMusic d (insertionPoints d sd.length) hd hch
  have hspeech := speech_sum_lemma sd
  simp only [totalOutputDuration, distributedConcatOrder, insertionPoints_length,
    if_pos hnpos]
  by_cases hlast : (insertionPoints d sd.length).getLastD 0 < d
  · have hM : splitMusicForInsertion d (insertionPoints d sd.length) =
        splitGo 0 (insertionPoints d sd.length) ++
          [some ((insertionPoints d sd.length).getLastD 0, d)] := by
      unfold splitMusicForInsertion
      rw [if_pos hlast]
    have hMlen : (splitMusicForInsertion d (insertionPoints d sd.length)).length =
        sd.length + 1 := by
      rw [hM, List.length_append, hGlen]
      rfl
    have hget : ∀ i, i < sd.length →
        (splitMusicForInsertion d (insertionPoints d sd.length)).getD i none =
        (splitGo 0 (insertionPoints d sd.length)).getD i none := by
      intro i hi
      rw [hM]
      exact List.getD_append _ _ _ _ (by omega)
    rw [List.map_append, List.map_append, List.sum_append, List.sum_append]
    rw [flatMap_sum_eval d sd sd.length _ _ hGlen (by omega) hget]
    rw [if_pos (show sd.length <
        (splitMusicForInsertion d (insertionPoints d sd.length)).length by omega)]
    rw [hM, List.getLastD_concat]
    have hmusic : (((splitGo 0 (insertionPoints d sd.length)).reduceOption).map
          (fun s => clampedDuration d s.1 s.2)).sum +
        clampedDuration d ((insertionPoints d sd.length).getLastD 0) d = d := by
      unfold musicSegmentsOf at hclamp
      rw [hM] at hclamp
      simp only [List.reduceOption_append, List.reduceOption_cons_of_some,
        List.reduceOption_nil, List.map_append, List.sum_append, List.map_cons,
        List.map_nil, List.sum_cons, List.sum_nil] at hclamp
      linarith [hclamp]
    simp only [List.map_cons, List.map_nil, List.sum_cons, List.sum_nil, itemDuration,
      optionToItems]
    linarith [hmusic, hspeech]
  · have hM : splitMusicForInsertion d (insertionPoints d sd.length) =
        splitGo 0 (insertionPoints d sd.length) := by
      unfold splitMusicForInsertion
      rw [if_neg hlast]
    have hMlen : (splitMusicForInsertion d (insertionPoints d sd.length)).length =
        sd.length := by
      rw [hM, hGlen]
    rw [List.map_append, List.map_append, List.sum_append, List.sum_append]
    rw [flatMap_sum_eval d sd sd.length _ _ hGlen (by omega)
      (fun i _ => by rw [hM])]
    rw [if_neg (show ¬ sd.length <
        (splitMusicForInsertion d (insertionPoints d sd.length)).length by omega)]
    have hmusic : (((splitGo 0 (insertionPoints d sd.length)).reduceOption).map
        (fun s => clampedDuration d s.1 s.2)).sum = d := by
      unfold musicSegmentsOf at hclamp
      rw [hM] at hclamp
      exact hclamp
    simp only [List.map_cons, List.map_nil, List.sum_cons, List.sum_nil, itemDuration]
    linarith [hmusic, hspeech]

/-- Evaluation of `distributed_duration_conservation` on the design
document's scenario: 60 s of music and three 8 s chunks yield 84 s. -/
theorem distributed_duration_conservation_witness :
    totalOutputDuration 60 [8, 8, 8] = 84 := by
  rw [distributed_duration_conservation 60 [8, 8, 8] (by norm_num) (by simp)]
  norm_num

/-! ## Claim C6: the Insertion Planner's arithmetic -/

/-- C6: the planner computes
`available = max(d - 5 - 10, d * 0.5)`, emits one insertion point per
speech chunk, and point `i` equals `5 + i * (available / n)`; in
particular a single chunk gets the single point `t = 5`. -/
theorem insertion_points_formula :
    ∀ (d : ℚ) (n : ℕ), 1 ≤ n →
      availableMusicDuration d = max (d - 5 - 10) (d * (1/2)) ∧
      (insertionPoints d n).length = n ∧
      ∀ i, i < n → (insertionPoints d n)[i]? =
        some (5 + (i : ℚ) * (availableMusicDuration d / (n : ℚ))) := by
  intro d n _
  refine ⟨rfl, insertionPoints_length d n, ?_⟩
  intro i hi
  rw [insertionPoints_eq_map, List.getElem?_map, List.getElem?_range hi]
  rfl

/-- Evaluation of `insertion_points_formula`: for 60 s of music and three
chunks, the third insertion point sits at `5 + 2 * (45 / 3) = 35` s. -/
theorem insertion_points_formula_witness :
    (insertionPoints 60 3)[2]? = some 35 := by
  rw [(insertion_points_formula 60 3 (by norm_num)).2.2 2 (by norm_num)]
  norm_num [availableMusicDuration, bufferStart, bufferEnd, max_def]

/-! ## Claim C7: the distributed assembly order -/

lemma splitGo_of_chain_lt : ∀ (l : List ℚ) (cs : ℚ), List.Chain (· < ·) cs l →
    splitGo cs l = (pairsFrom cs l).map some := by
  intro l
  induction l with
  | nil => intro cs _; rfl
  | cons p t ih =>
    intro cs h
    rw [List.chain_cons] at h
    simp only [splitGo, pairsFrom, List.map_cons, if_pos h.1, ih p h.2]

lemma pairsFrom_map_range : ∀ (n : ℕ) (f : ℕ → ℚ) (a : ℚ),
    pairsFrom a ((List.range n).map f) =
      (List.range n).map (fun i => ((if i = 0 then a else f (i - 1)), f i)) := by
  intro n
  induction n with
  | zero => intro f a; rfl
  | succ m ih =>
    intro f a
    rw [List.range_succ_eq_map, List.map_cons, List.map_map, List.map_cons, List.map_map]
    simp only [pairsFrom]
    congr 1
    rw [show f ∘ Nat.succ = (fun i => f (i + 1)) from rfl,
      ih (fun i => f (i + 1)) (f 0)]
    apply List.map_congr_left
    intro i _
    rcases i with _ | k
    · simp
    · simp [Nat.succ_sub_one]

lemma getLastD_insertionPoints (d : ℚ) (n : ℕ) (hn : 1 ≤ n) :
    (insertionPoints d n).getLastD 0 = insertionPoint d n (n - 1) := by
  rw [insertionPoints_eq_map]
  obtain ⟨m, rfl⟩ : ∃ m, n = m + 1 := ⟨n - 1, by omega⟩
  rw [List.range_succ, List.map_append, List.map_cons, List.map_nil, List.getLastD_concat]
  simp

lemma splitGo_insertionPoints (d : ℚ) (n : ℕ) (hd : 0 < d) (hn : 1 ≤ n) :
    splitGo 0 (insertionPoints d n) =
      (List.range n).map (fun i =>
        some ((if i = 0 then (0 : ℚ) else insertionPoint d n (i - 1)),
          insertionPoint d n i)) := by
  have hch := chain_lt_insertionPoints d hd n hn
  rw [insertionPoints_eq_map] at hch ⊢
  rw [splitGo_of_chain_lt _ _ hch, pairsFrom_map_range, List.map_map]
  rfl

/-- C7 counterexample: for 6 s of music and two chunks the last insertion
point is `6.5 > 6`, so the code emits no final trailing music segment:
the assembly ends with the inter-point segment `(5, 6.5)` instead of a
trailing segment ending at the track end, and differs from the
specification's pattern. -/
theorem distributed_order_counterexample :
    distributedConcatOrder 6 2 =
      [Sum.inr 0, Sum.inl (0, 5), Sum.inr 1, Sum.inl (5, 13/2)] ∧
    specAssembleOrder 6 2 =
      [Sum.inr 0, Sum.inl (0, 5), Sum.inr 1, Sum.inl (5, 13/2), Sum.inl (13/2, 6)] ∧
    distributedConcatOrder 6 2 ≠ specAssembleOrder 6 2 := by
  have hpts : insertionPoints 6 2 = [5, 13/2] := by
    rw [insertionPoints_eq_map]
    norm_num [List.range_succ, insertionPoint, availableMusicDuration,
      bufferStart, bufferEnd, max_def]
  have hsplit : splitMusicForInsertion 6 [5, 13/2] = [some (0, 5), some (5, 13/2)] := by
    norm_num [splitMusicForInsertion, splitGo, List.getLastD]
  have h1 : distributedConcatOrder 6 2 =
      [Sum.inr 0, Sum.inl (0, 5), Sum.inr 1, Sum.inl (5, 13/2)] := by
    simp only [distributedConcatOrder, hpts, hsplit]
    norm_num [List.range_succ, optionToItems, List.flatMap_cons, List.flatMap_nil,
      List.getLastD, List.getD]
  have h2 : specAssembleOrder 6 2 =
      [Sum.inr 0, Sum.inl (0, 5), Sum.inr 1, Sum.inl (5, 13/2), Sum.inl (13/2, 6)] := by
    simp only [specAssembleOrder]
    norm_num [List.range_succ, List.flatMap_cons, List.flatMap_nil, insertionPoint,
      availableMusicDuration, bufferStart, bufferEnd, max_def]
  refine ⟨h1, h2, ?_⟩
  rw [h1, h2]
  simp

/-- C7 amended: whenever the last insertion point falls strictly inside
the track (which holds for every `d ≥ 30`, and fails only for very short
music), the emitted order is exactly the specification's pattern — the
first speech chunk first, then alternating music segment / next speech
chunk, ending with the final trailing music segment; the very start of
the output is speech chunk 1 in all cases covered. -/
theorem distributed_order_pattern (d : ℚ) (n : ℕ) (hn : 1 ≤ n) (hd : 0 < d)
    (hlast : insertionPoint d n (n - 1) < d) :
    distributedConcatOrder d n = specAssembleOrder d n := by
  have hnpos : 0 < n := hn
  have hlastD : (insertionPoints d n).getLastD 0 = insertionPoint d n (n - 1) :=
    getLastD_insertionPoints d n hn
  have hG := splitGo_insertionPoints d n hd hn
  have hGlen : (splitGo 0 (insertionPoints d n)).length = n := by
    rw [splitGo_length, insertionPoints_length]
  have hM : splitMusicForInsertion d (insertionPoints d n) =
      splitGo 0 (insertionPoints d n) ++ [some (insertionPoint d n (n - 1), d)] := by
    unfold splitMusicForInsertion
    rw [hlastD, if_pos hlast]
  have hMlen : (splitMusicForInsertion d (insertionPoints d n)).length = n + 1 := by
    rw [hM, List.length_append, hGlen]
    rfl
  simp only [distributedConcatOrder, insertionPoints_length, if_pos hnpos]
  rw [if_pos (show n < (splitMusicForInsertion d (insertionPoints d n)).length by omega)]
  have hlastseg : (splitMusicForInsertion d (insertionPoints d n)).getLastD none =
      some (insertionPoint d n (n - 1), d) := by
    rw [hM, List.getLastD_concat]
  rw [hlastseg]
  have hbody : ∀ i ∈ List.range n,
      ((if i < (splitMusicForInsertion d (insertionPoints d n)).length
          then optionToItems ((splitMusicForInsertion d (insertionPoints d n)).getD i none)
          else []) ++
        (if i + 1 < n then [Sum.inr (i + 1)] else [])) =
      ((Sum.inl ((if i = 0 then (0 : ℚ) else insertionPoint d n (i - 1)),
          insertionPoint d n i) : Item) ::
        (if i + 1 < n then [Sum.inr (i + 1)] else [])) := by
    intro i hi
    rw [List.mem_range] at hi
    rw [if_pos (by omega), hM, List.getD_append _ _ _ _ (by omega), hG]
    rw [List.getD_eq_getElem?_getD, List.getElem?_map, List.getElem?_range hi]
    rfl
  rw [List.flatMap_def, List.map_congr_left hbody, ← List.flatMap_def]
  simp only [specAssembleOrder, optionToItems]
  simp

/-- Evaluation of `distributed_order_pattern` on the design document's
scenario (60 s of music, three chunks): the assembly equals the
specification pattern. -/
theorem distributed_order_pattern_witness :
    distributedConcatOrder 60 3 = specAssembleOrder 60 3 := by
  apply distributed_order_pattern 60 3 (by norm_num) (by norm_num)
  norm_num [insertionPoint, availableMusicDuration, bufferStart, bufferEnd, max_def]

/-! ## Claim C2: the Duration Limiter -/

/-- C2 counterexample: the claim says an asset longer than the bound comes
back truncated to exactly `max_seconds`.  For a 4 800 000-byte asset
(300 s at the engine's own 16 KB/s byte-rate) limited to 180 s,
`limit_duration` returns the input bytes unchanged, so the result still
probes at 300 s, strictly above the bound. -/
theorem limit_duration_counterexample :
    limit_duration (List.replicate 4800000 0) 180 = List.replicate 4800000 0 ∧
    get_audio_duration none (some (limit_duration (List.replicate 4800000 0) 180).length) = 300 ∧
    (180 : ℚ) < 300 := by
  refine ⟨rfl, ?_, by norm_num⟩
  simp only [limit_duration, get_audio_duration, List.length_replicate]
  norm_num

/-- C2 amended: `limit_duration` never truncates; it returns the input
bytes unchanged for every bound, so the probed duration of the output
always equals that of the input. -/
theorem limit_duration_is_identity :
    ∀ (input : List ℕ) (maxDuration : ℚ),
      limit_duration input maxDuration = input ∧
      get_audio_duration none (some (limit_duration input maxDuration).length) =
        get_audio_duration none (some input.length) :=
  fun _ _ => ⟨rfl, rfl⟩

/-! ## Claim C3: random mode for a single chunk -/

/-- C3 counterexample: for a single-chunk request in mode `random` with
music of 100 s and speech of 10 s (so `music > 2 × speech` holds), the
dispatch runs intro splicing: the output is speech followed by the whole
music track, and is not a split of the music around any insertion point. -/
theorem random_single_chunk_counterexample :
    singleChunkSpliceOrder "random" 100 = [Sum.inr 0, Sum.inl (0, 100)] ∧
    (2 * 10 < (100 : ℚ)) ∧
    ¬ ∃ p : ℚ, singleChunkSpliceOrder "random" 100 =
        [Sum.inl (0, p), Sum.inr 0, Sum.inl (p, 100)] := by
  refine ⟨rfl, by norm_num, ?_⟩
  rintro ⟨p, hp⟩
  rw [show singleChunkSpliceOrder "random" 100 = [Sum.inr 0, Sum.inl (0, 100)] from rfl] at hp
  simp at hp

/-- C3 amended: a single-chunk request in mode `random` always takes the
intro path (speech, then the full music), with no split and no random
insertion point, whatever the durations are; `splice_random` itself also
only delegates to the simple concatenation. -/
theorem random_single_chunk_is_intro :
    ∀ (d musicDuration speechDuration : ℚ),
      spliceRandomOrder musicDuration speechDuration = [Sum.inr 0, Sum.inl (0, musicDuration)] ∧
      singleChunkSpliceOrder "random" d = [Sum.inr 0, Sum.inl (0, d)] :=
  fun _ _ _ => ⟨rfl, rfl⟩

/-! ## Claim C4: the default splice mode -/

/-- C4 counterexample: a request that omits `spliceMode` gets the literal
default `'intro'`, so with two speech chunks the dispatch selects intro
splicing, not distributed splicing. -/
theorem default_mode_counterexample :
    requestSpliceMode none = "intro" ∧
    selectStrategy (requestSpliceMode none) 2 = Strategy.introConcat ∧
    Strategy.introConcat ≠ Strategy.distributedMulti :=
  ⟨rfl, rfl, by simp⟩

/-- C4 amended: a request that omits the mode field defaults to intro
splicing for every chunk count (multiple chunks are pre-concatenated and
placed before the music); the default-to-distributed branch is only
reachable for unrecognized mode strings. -/
theorem default_mode_is_intro :
    ∀ numChunks : ℕ,
      selectStrategy (requestSpliceMode none) numChunks = Strategy.introConcat := by
  intro n
  simp [requestSpliceMode, selectStrategy]

/-! ## Claim C8: the Duration Prober -/

/-- C8 counterexample: a zero-byte file whose container cannot be read
probes at `0 / 16000 = 0` seconds — the returned duration is not always
positive. -/
theorem prober_counterexample :
    get_audio_duration none (some 0) = 0 ∧
    ¬ (0 < get_audio_duration none (some 0)) := by
  constructor
  · simp [get_audio_duration]
  · simp [get_audio_duration]

/-- C8 amended: the prober is total with the claimed fallbacks — the
container duration when readable, else `byte_length / 16000`, else the
default `180.0` — and the result is positive whenever any readable
container duration is positive and any available byte length is nonzero
(a zero-byte unopenable file yields `0.0`). -/
theorem prober_fallback_total :
    (∀ (t : ℚ) (fileSize : Option ℕ), get_audio_duration (some t) fileSize = t) ∧
    (∀ bytes : ℕ, get_audio_duration none (some bytes) = (bytes : ℚ) / 16000) ∧
    get_audio_duration none none = 180 ∧
    (∀ (containerDuration : Option ℚ) (fileSize : Option ℕ),
      (∀ t ∈ containerDuration, 0 < t) → (∀ b ∈ fileSize, 0 < b) →
      0 < get_audio_duration containerDuration fileSize) := by
  refine ⟨fun _ _ => rfl, fun _ => rfl, rfl, ?_⟩
  intro cd fs hcd hfs
  cases cd with
  | some t => simpa [get_audio_duration] using hcd t rfl
  | none =>
    cases fs with
    | some b =>
      have hb : 0 < b := hfs b rfl
      simp only [get_audio_duration]
      positivity
    | none => norm_num [get_audio_duration]

/-- Evaluation of `prober_fallback_total` at a concrete input: a 16 000-byte
unreadable file probes at a positive duration (one second). -/
theorem prober_fallback_total_witness :
    0 < get_audio_duration none (some 16000) ∧
    get_audio_duration none (some 16000) = 1 := by
  refine ⟨prober_fallback_total.2.2.2 none (some 16000) (by simp) ?_, ?_⟩
  · intro b hb
    simp only [Option.mem_def, Option.some.injEq] at hb
    omega
  · rw [prober_fallback_total.2.1 16000]
    norm_num

/-! ## Claim C9: temporary-artifact cleanup -/

/-- C9 counterexample: distributed splicing of two chunks over 45 s of
music creates `music_segment_0`, `music_segment_1` and
`music_segment_final`; a failure at the next step (converting the first
speech chunk) ends the run with those three files still on disk — the
error path removes nothing. -/
theorem cleanup_counterexample :
    runFs (distributedFsActions 45 2) (some 3) [] =
      (false, [TmpFile.seg 0, TmpFile.seg 1, TmpFile.segFinal]) ∧
    ([TmpFile.seg 0, TmpFile.seg 1, TmpFile.segFinal] : List TmpFile) ≠ [] := by
  constructor
  · norm_num [distributedFsActions, distributedTempNames, musicSegmentTempNames,
      insertionPoints, insertionPoint, availableMusicDuration, bufferStart, bufferEnd,
      splitGo, withIdx, List.range_succ, max_def, runFs, applyFs]
  · simp

/-- C9 amended: on the success path every temporary file of a distributed
splice is removed before the operation returns; a run that raises stops at
the failing step and leaks every temporary file created before it. -/
theorem cleanup_success_path :
    ∀ (d : ℚ) (n : ℕ), runFs (distributedFsActions d n) none [] = (true, []) := by
  intro d n
  rw [runFs_none]
  simp only [distributedFsActions, List.foldl_append, foldl_create, List.foldl_cons,
    List.foldl_nil, applyFs, List.nil_append, foldl_remove_self]

/-! ## Claim C10: byte-level binary concatenation -/

/-- C10: the binary concatenation used by the Sequencer, the intro splice
and the distributed assembly emits the first file's bytes followed by each
later file's bytes with exactly its first 1024 bytes removed; the skip is
the fixed constant 1024, so a later file of at most 1024 bytes contributes
nothing to the output. -/
theorem binary_concat_spec :
    ∀ (first : List ℕ) (rest xs ys : List (List ℕ)) (g : List ℕ),
      binaryConcatBytes (first :: rest) =
        first ++ (rest.map (fun f => f.drop 1024)).flatten ∧
      (g.length ≤ 1024 →
        binaryConcatBytes (first :: (xs ++ g :: ys)) =
          binaryConcatBytes (first :: (xs ++ ys))) := by
  have head : ∀ (first : List ℕ) (rest : List (List ℕ)),
      binaryConcatBytes (first :: rest) =
        first ++ (rest.map (fun f => f.drop 1024)).flatten := by
    intro first rest
    simp only [binaryConcatBytes, binaryConcatGo, if_neg (lt_irrefl 0),
      binaryConcatGo_pos rest 1 Nat.one_pos]
  intro first rest xs ys g
  refine ⟨head first rest, fun hg => ?_⟩
  rw [head, head]
  simp [List.drop_eq_nil_of_le hg]

/-- Evaluation of `binary_concat_spec` at concrete inputs: a 1024-byte
second file is dropped entirely, and a 1025-byte second file contributes
exactly its last byte. -/
theorem binary_concat_spec_witness :
    binaryConcatBytes ([1, 2] :: ([] ++ List.replicate 1024 5 :: [[9]])) =
      binaryConcatBytes ([1, 2] :: ([] ++ [[9]])) ∧
    binaryConcatBytes [[1, 2], List.replicate 1025 7] =
      [1, 2] ++ ([List.replicate 1025 7].map (fun f => f.drop 1024)).flatten := by
  constructor
  · exact (binary_concat_spec [1, 2] [] [] [[9]] (List.replicate 1024 5)).2
      (by rw [List.length_replicate])
  · exact (binary_concat_spec [1, 2] [List.replicate 1025 7] [] [] []).1

end SpliceAudio
